import Mathlib

/-!
Verification development for the cfilevisit concurrent filesystem walker
(src/lib.rs and src/countingvisitor/mod.rs).

The shallow embedding below translates the Rust source into Lean:

* paths are lists of name components, each component a list of bytes
  (Rust OsString bytes); the queue of pending work holds such paths
  (the Rust queue holds String values, i.e. valid-UTF-8 paths);
* the static filesystem visible to the walk is an inductive tree FsTree;
  each node records whether a stat (symlink_metadata / DirEntry::metadata)
  on it succeeds, its lstat metadata, whether read_dir on it succeeds, and
  its directory entries in iteration order (an entry is either a child or
  an iterator error, modelling the Result items of fs::read_dir);
* the visitor trait VisitCallback is a structure of four functions over a
  caller-chosen state type;
* process_dir (lib.rs lines 65-117) and the per-item branch of the worker
  loop (lib.rs lines 157-176) become pure functions returning the new
  visitor state, the list of callback events in invocation order, the list
  of paths pushed onto the shared queue in push order, and an optional
  panic (the two unwrap calls that can fail on filesystem data);
* the worker/dispatcher coordination protocol of visit_paths
  (lib.rs lines 124-264) becomes a small-step transition relation over a
  walk state, with one transition per mutex-protected block of the source.
-/

namespace CFileVisit

/-- Bytes of an OS string (one path component). -/
abbrev OsString := List Nat

/-- Paths are component lists; the Rust code renders them as slash-joined
strings, which for a static tree is an equivalent identification. -/
abbrev Path := List OsString

/-- True for a UTF-8 continuation byte (0x80-0xBF). -/
def contByte (b : Nat) : Bool := 0x80 ≤ b && b ≤ 0xBF

/-- UTF-8 validity of a byte sequence, mirroring the check performed by
Rust's OsString::into_string (RFC 3629 well-formedness). -/
def validUtf8 : List Nat → Bool
  | [] => true
  | b :: rest =>
    if b ≤ 0x7F then validUtf8 rest
    else if 0xC2 ≤ b && b ≤ 0xDF then
      match rest with
      | c :: r => contByte c && validUtf8 r
      | [] => false
    else if b = 0xE0 then
      match rest with
      | c1 :: c2 :: r => (0xA0 ≤ c1 && c1 ≤ 0xBF) && contByte c2 && validUtf8 r
      | _ => false
    else if (0xE1 ≤ b && b ≤ 0xEC) || b = 0xEE || b = 0xEF then
      match rest with
      | c1 :: c2 :: r => contByte c1 && contByte c2 && validUtf8 r
      | _ => false
    else if b = 0xED then
      match rest with
      | c1 :: c2 :: r => (0x80 ≤ c1 && c1 ≤ 0x9F) && contByte c2 && validUtf8 r
      | _ => false
    else if b = 0xF0 then
      match rest with
      | c1 :: c2 :: c3 :: r =>
        (0x90 ≤ c1 && c1 ≤ 0xBF) && contByte c2 && contByte c3 && validUtf8 r
      | _ => false
    else if 0xF1 ≤ b && b ≤ 0xF3 then
      match rest with
      | c1 :: c2 :: c3 :: r => contByte c1 && contByte c2 && contByte c3 && validUtf8 r
      | _ => false
    else if b = 0xF4 then
      match rest with
      | c1 :: c2 :: c3 :: r =>
        (0x80 ≤ c1 && c1 ≤ 0x8F) && contByte c2 && contByte c3 && validUtf8 r
      | _ => false
    else false

/-- File type as classified by Metadata::file_type (is_dir / is_file / other). -/
inductive FileType where
  | file
  | dir
  | other
deriving DecidableEq, Repr

/-- Lstat-style metadata: file type, device id, inode number. -/
structure Metadata where
  ftype : FileType
  dev : Nat
  ino : Nat
deriving DecidableEq, Repr

/-- Directory entries of a node, in iteration order.  consErr is an entry
on which the read_dir iterator yields an Err value (lib.rs line 93 unwraps
it); consOk carries the child's name together with the child node's data:
whether stat calls on the child succeed, its lstat metadata, whether
read_dir on it succeeds, and its own entries. -/
inductive EntryList where
  | nil
  | consErr (rest : EntryList)
  | consOk (name : OsString) (statOk : Bool) (meta : Metadata) (rdOk : Bool)
      (sub : EntryList) (rest : EntryList)
deriving DecidableEq, Repr

/-- Static filesystem node: whether stat calls on it succeed, its lstat
metadata, whether read_dir on it succeeds, and its entries. -/
structure FsTree where
  statOk : Bool
  meta : Metadata
  rdOk : Bool
  entries : EntryList
deriving DecidableEq, Repr

/-- Number of nodes hanging off an entry list. -/
def EntryList.sizeEntries : EntryList → Nat
  | .nil => 0
  | .consErr rest => rest.sizeEntries
  | .consOk _ _ _ _ sub rest => 1 + sub.sizeEntries + rest.sizeEntries

/-- Number of nodes of a filesystem tree. -/
def FsTree.size (t : FsTree) : Nat := 1 + t.entries.sizeEntries

/-- Resolve a name among directory entries (first match wins). -/
def lookupChild : EntryList → OsString → Option FsTree
  | .nil, _ => none
  | .consErr rest, n => lookupChild rest n
  | .consOk name so m rd sub rest, n =>
    if name = n then some ⟨so, m, rd, sub⟩ else lookupChild rest n

/-- Resolve a path from a root node, component by component. -/
def lookup : FsTree → Path → Option FsTree
  | t, [] => some t
  | t, n :: rest =>
    match lookupChild t.entries n with
    | some c => lookup c rest
    | none => none

/-- Model of fs::symlink_metadata: succeeds on a stat-able existing node. -/
def symlinkMetadata (fs : FsTree) (p : Path) : Option Metadata :=
  match lookup fs p with
  | some t => if t.statOk then some t.meta else none
  | none => none

/-- Model of fs::read_dir: succeeds on an existing, readable node. -/
def readDir (fs : FsTree) (p : Path) : Option EntryList :=
  match lookup fs p with
  | some t => if t.rdOk then some t.entries else none
  | none => none

/-- Weight of a queued path: size of the subtree it resolves to. -/
def sizeAt (fs : FsTree) (p : Path) : Nat :=
  match lookup fs p with
  | some t => t.size
  | none => 1

/-- Model of the trait VisitCallback (lib.rs lines 41-63) over a visitor
state type sigma; on_dir_enter also returns the descend decision. -/
structure Visitor (σ : Type) where
  on_file_visit : σ → Path → Metadata → σ
  on_nonfile_visit : σ → Path → Metadata → σ
  on_dir_enter : σ → Path → Metadata → σ × Bool
  on_dir_exit : σ → Path → Metadata → σ

/-- Callback invocation events, recorded in invocation order. -/
inductive Event where
  | fileVisit (p : Path)
  | nonfileVisit (p : Path)
  | dirEnter (p : Path) (descend : Bool)
  | dirExit (p : Path)
deriving DecidableEq, Repr

/-- Reasons for which the worker code can panic on filesystem data. -/
inductive Panic where
  | entryErr
  | nonUtf8 (name : OsString)
deriving DecidableEq, Repr

/-- Result of processing one piece of work: final visitor state, callback
events in order, paths pushed onto the queue in order, optional panic
(effects recorded up to the panic point). -/
structure HandleResult (σ : Type) where
  st : σ
  events : List Event
  pushes : List Path
  panic : Option Panic
deriving Repr

/-- Loop body over directory entries, lib.rs lines 92-116.  Each iteration
unwraps the entry (consErr panics), then on entry metadata success pushes a
directory child (panicking when its name is not valid UTF-8), visits a file
or non-file child inline, and then -- still inside the loop -- calls
on_dir_exit for the enclosing directory; a metadata failure skips the
iteration via continue, skipping that on_dir_exit call as well. -/
def processEntries {σ : Type} (vis : Visitor σ) (dirPath : Path) (dirMeta : Metadata) :
    EntryList → σ → HandleResult σ
  | .nil, s => ⟨s, [], [], none⟩
  | .consErr _, s => ⟨s, [], [], some .entryErr⟩
  | .consOk name so cm _ _ rest, s =>
    if so then
      let childPath := dirPath ++ [name]
      match cm.ftype with
      | .dir =>
        if validUtf8 name then
          let s1 := vis.on_dir_exit s dirPath dirMeta
          let r := processEntries vis dirPath dirMeta rest s1
          ⟨r.st, .dirExit dirPath :: r.events, childPath :: r.pushes, r.panic⟩
        else
          ⟨s, [], [], some (.nonUtf8 name)⟩
      | .file =>
        let s1 := vis.on_file_visit s childPath cm
        let s2 := vis.on_dir_exit s1 dirPath dirMeta
        let r := processEntries vis dirPath dirMeta rest s2
        ⟨r.st, .fileVisit childPath :: .dirExit dirPath :: r.events, r.pushes, r.panic⟩
      | .other =>
        let s1 := vis.on_nonfile_visit s childPath cm
        let s2 := vis.on_dir_exit s1 dirPath dirMeta
        let r := processEntries vis dirPath dirMeta rest s2
        ⟨r.st, .nonfileVisit childPath :: .dirExit dirPath :: r.events, r.pushes, r.panic⟩
    else
      processEntries vis dirPath dirMeta rest s

/-- Translation of process_dir, lib.rs lines 65-117: call on_dir_enter; if
declined, call on_dir_exit and return; read_dir the directory; on failure
call on_dir_exit and return; otherwise run the entry loop. -/
def processDir {σ : Type} (vis : Visitor σ) (fs : FsTree) (path : Path)
    (meta : Metadata) (s : σ) : HandleResult σ :=
  match vis.on_dir_enter s path meta with
  | (s1, false) =>
    ⟨vis.on_dir_exit s1 path meta, [.dirEnter path false, .dirExit path], [], none⟩
  | (s1, true) =>
    match readDir fs path with
    | none =>
      ⟨vis.on_dir_exit s1 path meta, [.dirEnter path true, .dirExit path], [], none⟩
    | some es =>
      let r := processEntries vis path meta es s1
      ⟨r.st, .dirEnter path true :: r.events, r.pushes, r.panic⟩

/-- Translation of the Some branch of the worker loop, lib.rs lines 157-176:
classify the popped path via symlink_metadata; a directory goes through
process_dir, a regular file gets on_file_visit, any other type is only
logged at debug level and skipped, and a metadata failure is likewise only
logged and skipped. -/
def handleItem {σ : Type} (vis : Visitor σ) (fs : FsTree) (p : Path) (s : σ) :
    HandleResult σ :=
  match symlinkMetadata fs p with
  | none => ⟨s, [], [], none⟩
  | some m =>
    match m.ftype with
    | .dir => processDir vis fs p m s
    | .file => ⟨vis.on_file_visit s p m, [.fileVisit p], [], none⟩
    | .other => ⟨s, [], [], none⟩

/-- Push onto the shared work queue: Vec::push appends at the end
(lib.rs lines 97-100). -/
def queuePush (q : List Path) (p : Path) : List Path := q ++ [p]

/-- Pop from the shared work queue: Vec::pop removes and returns the last
element, or reports empty (lib.rs line 155). -/
def queuePop (q : List Path) : Option (Path × List Path) :=
  match q.reverse with
  | [] => none
  | p :: r => some (p, r.reverse)

/-- Absence of the two data-dependent panics anywhere below an entry list:
no iterator-error entry, and every entry name is valid UTF-8. -/
def EntryList.panicFree : EntryList → Bool
  | .nil => true
  | .consErr _ => false
  | .consOk name _ _ _ sub rest =>
    validUtf8 name && sub.panicFree && rest.panicFree

/-- Absence of the two data-dependent panics anywhere in a tree. -/
def FsTree.panicFreeTree (t : FsTree) : Bool := t.entries.panicFree

/-- Names of the good entries of a directory, in order. -/
def EntryList.names : EntryList → List OsString
  | .nil => []
  | .consErr rest => rest.names
  | .consOk name _ _ _ _ rest => name :: rest.names

/-- Uniqueness of entry names in every directory below an entry list; real
directories never hold two entries of the same name, and this records that
filesystem guarantee. -/
def EntryList.uniqueEntries : EntryList → Bool
  | .nil => true
  | .consErr rest => rest.uniqueEntries
  | .consOk _ _ _ _ sub rest =>
    (decide sub.names.Nodup && sub.uniqueEntries) && rest.uniqueEntries

/-- Uniqueness of entry names in every directory of the tree. -/
def FsTree.uniqueTree (t : FsTree) : Bool :=
  decide t.entries.names.Nodup && t.entries.uniqueEntries

/-! ### The worker/dispatcher coordination protocol of visit_paths

Each worker thread runs the loop of lib.rs lines 154-210; the dispatcher
(main) thread runs lines 224-263.  The transition relation below has one
step per mutex-protected block of that code.  Processing one popped item
(classification plus process_dir) touches the shared queue only through
pushes and holds no lock across the whole of it; it is modelled as a
single step whose queue effect is the list of pushes. -/

/-- Control locations of a worker thread.
busy: at the top of the loop, about to pop (lib.rs line 155).
afterPopEmpty: pop returned None, about to decrement the active count
(lines 180-184).  preWait: decremented, about to take the queue lock and
check the finished flag (lines 186-193).  waiting: parked in
cond_workpresent.wait (line 194).  wokeCheck: woken, about to recheck the
finished flag under the counter lock (lines 198-207).  exited: returned.
panicked: the thread died in one of the unwrap panics of process_dir. -/
inductive WorkerPc where
  | busy
  | afterPopEmpty
  | preWait
  | waiting
  | wokeCheck
  | exited
  | panicked
deriving DecidableEq, Repr

/-- Control locations of the dispatcher thread.
polling: holds the counter lock and inspects active_workercount
(lib.rs lines 225-236).  waitingMain: parked in cond_workfinished.wait
(line 253).  joining k: has joined the first k workers (lines 259-263).
done: visit_paths returned. -/
inductive MainPc where
  | polling
  | waitingMain
  | joining (k : Nat)
  | done
deriving DecidableEq, Repr

/-- Shared state of one visit_paths call plus every thread's location. -/
structure WalkState (σ : Type) where
  queue : List Path
  vs : σ
  active : Int
  finished : Bool
  ws : List WorkerPc
  mpc : MainPc

/-- Static parameters of one visit_paths call. -/
structure Sys (σ : Type) where
  fs : FsTree
  seeds : List Path
  numWorkers : Nat
  vis : Visitor σ
  vs0 : σ

/-- Initial state (lib.rs lines 133-140): queue holds the seed paths, the
active count starts at num_workers, the finished flag is false, every
worker starts at the top of its loop, the dispatcher starts polling. -/
def initState {σ : Type} (sys : Sys σ) : WalkState σ :=
  ⟨sys.seeds, sys.vs0, (sys.numWorkers : Int), false,
    List.replicate sys.numWorkers .busy, .polling⟩

/-- Effect of cond_workpresent.notify_all on the parked workers. -/
def wakeAll (pc : WorkerPc) : WorkerPc :=
  if pc = .waiting then .wokeCheck else pc

/-- Workers woken by the notify_all accompanying a non-empty push batch. -/
def wakeIf (pushes : List Path) (ws : List WorkerPc) : List WorkerPc :=
  if pushes.isEmpty then ws else ws.map wakeAll

/-- Effect of cond_workfinished.notify_all on the dispatcher. -/
def notifyMain (m : MainPc) : MainPc :=
  if m = .waitingMain then .polling else m

/-- Worker location after processing an item: a panic kills the thread,
otherwise it loops back to the next pop. -/
def pcAfterItem (pan : Option Panic) : WorkerPc :=
  if pan.isSome then .panicked else .busy

/-- Small-step transition relation of the visit_paths protocol. -/
inductive Step {σ : Type} (sys : Sys σ) : WalkState σ → WalkState σ → Prop where
  /-- Worker i pops the most recent item and processes it (lib.rs
  lines 155-176): the pushes of process_dir are appended to the queue and
  their notify_all calls wake every parked worker. -/
  | popItem {s : WalkState σ} (i : Nat) (p : Path) (q' : List Path)
      (r : HandleResult σ)
      (hi : s.ws[i]? = some .busy)
      (hq : queuePop s.queue = some (p, q'))
      (hr : handleItem sys.vis sys.fs p s.vs = r) :
      Step sys s ⟨r.pushes.foldl queuePush q', r.st, s.active, s.finished,
        wakeIf r.pushes (s.ws.set i (pcAfterItem r.panic)), s.mpc⟩
  /-- Worker i pops from an empty queue (lib.rs line 178). -/
  | popEmpty {s : WalkState σ} (i : Nat)
      (hi : s.ws[i]? = some .busy)
      (hq : queuePop s.queue = none) :
      Step sys s ⟨s.queue, s.vs, s.active, s.finished,
        s.ws.set i .afterPopEmpty, s.mpc⟩
  /-- Worker i decrements the active count under the counter lock and
  notifies cond_workfinished (lib.rs lines 180-184). -/
  | decr {s : WalkState σ} (i : Nat)
      (hi : s.ws[i]? = some .afterPopEmpty) :
      Step sys s ⟨s.queue, s.vs, s.active - 1, s.finished,
        s.ws.set i .preWait, notifyMain s.mpc⟩
  /-- Worker i takes the queue lock, sees the finished flag set and returns
  (lib.rs lines 186-193). -/
  | parkExit {s : WalkState σ} (i : Nat)
      (hi : s.ws[i]? = some .preWait)
      (hf : s.finished = true) :
      Step sys s ⟨s.queue, s.vs, s.active, s.finished,
        s.ws.set i .exited, s.mpc⟩
  /-- Worker i takes the queue lock, sees the finished flag unset and parks
  in cond_workpresent.wait (lib.rs lines 186-195). -/
  | parkSleep {s : WalkState σ} (i : Nat)
      (hi : s.ws[i]? = some .preWait)
      (hf : s.finished = false) :
      Step sys s ⟨s.queue, s.vs, s.active, s.finished,
        s.ws.set i .waiting, s.mpc⟩
  /-- Woken worker i sees the finished flag set and returns
  (lib.rs lines 198-204). -/
  | wokeExit {s : WalkState σ} (i : Nat)
      (hi : s.ws[i]? = some .wokeCheck)
      (hf : s.finished = true) :
      Step sys s ⟨s.queue, s.vs, s.active, s.finished,
        s.ws.set i .exited, s.mpc⟩
  /-- Woken worker i sees the finished flag unset, increments the active
  count and goes back to popping (lib.rs lines 198-207). -/
  | wokeInc {s : WalkState σ} (i : Nat)
      (hi : s.ws[i]? = some .wokeCheck)
      (hf : s.finished = false) :
      Step sys s ⟨s.queue, s.vs, s.active + 1, s.finished,
        s.ws.set i .busy, s.mpc⟩
  /-- Dispatcher observes a non-zero active count and parks in
  cond_workfinished.wait (lib.rs lines 225, 236, 253). -/
  | mainWait {s : WalkState σ}
      (hm : s.mpc = .polling)
      (ha : s.active ≠ 0) :
      Step sys s ⟨s.queue, s.vs, s.active, s.finished, s.ws, .waitingMain⟩
  /-- Dispatcher observes a zero active count: sets the finished flag,
  wakes every parked worker with cond_workpresent.notify_all, and breaks
  out towards the joins (lib.rs lines 236-249). -/
  | mainFinish {s : WalkState σ}
      (hm : s.mpc = .polling)
      (ha : s.active = 0) :
      Step sys s ⟨s.queue, s.vs, s.active, true, s.ws.map wakeAll, .joining 0⟩
  /-- Dispatcher joins worker k once it has exited (lib.rs lines 259-263). -/
  | mainJoin {s : WalkState σ} (k : Nat)
      (hm : s.mpc = .joining k)
      (hj : s.ws[k]? = some .exited) :
      Step sys s ⟨s.queue, s.vs, s.active, s.finished, s.ws, .joining (k + 1)⟩
  /-- Dispatcher has joined every worker and visit_paths returns. -/
  | mainDone {s : WalkState σ}
      (hm : s.mpc = .joining sys.numWorkers) :
      Step sys s ⟨s.queue, s.vs, s.active, s.finished, s.ws, .done⟩

/-- States reachable from the initial state of a visit_paths call. -/
def Reachable {σ : Type} (sys : Sys σ) (s : WalkState σ) : Prop :=
  Relation.ReflTransGen (Step sys) (initState sys) s

/-- A state with no enabled transition. -/
def Stuck {σ : Type} (sys : Sys σ) (s : WalkState σ) : Prop :=
  ¬ ∃ s', Step sys s s'

/-- Workers counted by the shared active counter: those between a dequeue
attempt and parking (the initial state counts every worker); a thread that
panicked while active died without ever decrementing the counter. -/
def countedPc : WorkerPc → Bool
  | .busy => true
  | .afterPopEmpty => true
  | .panicked => true
  | .preWait => false
  | .waiting => false
  | .wokeCheck => false
  | .exited => false

/-- Number of workers currently counted by the active counter. -/
def countActive (ws : List WorkerPc) : Nat := ws.countP countedPc

/-! ### List helper lemmas -/

theorem countP_set_eq {α : Type} (p : α → Bool) (l : List α) (i : Nat) (a b : α)
    (h : l[i]? = some a) :
    (l.set i b).countP p + (if p a then 1 else 0)
      = l.countP p + (if p b then 1 else 0) := by
  induction l generalizing i with
  | nil => simp at h
  | cons x xs ih =>
    cases i with
    | zero =>
      simp only [List.getElem?_cons_zero, Option.some.injEq] at h
      subst h
      simp [List.countP_cons]
      omega
    | succ j =>
      simp only [List.getElem?_cons_succ] at h
      simp only [List.set_cons_succ, List.countP_cons]
      have := ih j h
      omega

theorem sum_map_set_eq {α : Type} (f : α → Nat) (l : List α) (i : Nat) (a b : α)
    (h : l[i]? = some a) :
    ((l.set i b).map f).sum + f a = (l.map f).sum + f b := by
  induction l generalizing i with
  | nil => simp at h
  | cons x xs ih =>
    cases i with
    | zero =>
      simp only [List.getElem?_cons_zero, Option.some.injEq] at h
      subst h
      simp [List.map_cons, List.sum_cons]
      omega
    | succ j =>
      simp only [List.getElem?_cons_succ] at h
      simp only [List.set_cons_succ, List.map_cons, List.sum_cons]
      have := ih j h
      omega

theorem sum_map_le_mul {α : Type} (f : α → Nat) (c : Nat) (l : List α)
    (h : ∀ x ∈ l, f x ≤ c) : (l.map f).sum ≤ c * l.length := by
  induction l with
  | nil => simp
  | cons x xs ih =>
    simp only [List.map_cons, List.sum_cons, List.length_cons]
    have h1 : f x ≤ c := h x (List.mem_cons_self x xs)
    have h2 : (xs.map f).sum ≤ c * xs.length :=
      ih fun y hy => h y (List.mem_cons_of_mem x hy)
    calc f x + (xs.map f).sum ≤ c + c * xs.length := by omega
      _ = c * (xs.length + 1) := by ring

theorem countP_map_id_of {α : Type} (p : α → Bool) (f : α → α) (l : List α)
    (h : ∀ a, p (f a) = p a) : (l.map f).countP p = l.countP p := by
  induction l with
  | nil => rfl
  | cons x xs ih => simp [List.countP_cons, ih, h]

theorem foldl_queuePush (q : List Path) (ps : List Path) :
    ps.foldl queuePush q = q ++ ps := by
  induction ps generalizing q with
  | nil => simp
  | cons p rest ih => simp [List.foldl_cons, queuePush, ih]

theorem queuePop_eq_some {q q' : List Path} {p : Path}
    (h : queuePop q = some (p, q')) : q = q' ++ [p] := by
  unfold queuePop at h
  rcases hq : q.reverse with _ | ⟨x, r⟩
  · rw [hq] at h; simp at h
  · rw [hq] at h
    simp only [Option.some.injEq, Prod.mk.injEq] at h
    obtain ⟨h1, h2⟩ := h
    subst h1 h2
    have : q.reverse.reverse = (x :: r).reverse := by rw [hq]
    simpa using this

theorem queuePop_eq_none {q : List Path} (h : queuePop q = none) : q = [] := by
  unfold queuePop at h
  rcases hq : q.reverse with _ | ⟨x, r⟩
  · have : q.reverse.reverse = ([] : List Path).reverse := by rw [hq]
    simpa using this
  · rw [hq] at h; simp at h

/-! ### Facts about wakeAll and wakeIf -/

theorem wakeAll_ne_waiting (a : WorkerPc) : wakeAll a ≠ .waiting := by
  unfold wakeAll
  split <;> simp_all

theorem wakeAll_eq_panicked {a : WorkerPc} (h : wakeAll a = .panicked) :
    a = .panicked := by
  unfold wakeAll at h
  split at h <;> simp_all

theorem wakeAll_exited : wakeAll .exited = .exited := rfl

theorem countedPc_wakeAll (a : WorkerPc) : countedPc (wakeAll a) = countedPc a := by
  unfold wakeAll
  split <;> simp_all [countedPc]

theorem countActive_map_wakeAll (ws : List WorkerPc) :
    countActive (ws.map wakeAll) = countActive ws :=
  countP_map_id_of countedPc wakeAll ws countedPc_wakeAll

theorem countActive_wakeIf (ps : List Path) (ws : List WorkerPc) :
    countActive (wakeIf ps ws) = countActive ws := by
  unfold wakeIf
  split
  · rfl
  · exact countActive_map_wakeAll ws

theorem length_wakeIf (ps : List Path) (ws : List WorkerPc) :
    (wakeIf ps ws).length = ws.length := by
  unfold wakeIf
  split <;> simp

theorem mem_wakeIf {pc : WorkerPc} {ps : List Path} {ws : List WorkerPc}
    (h : pc ∈ wakeIf ps ws) : pc ∈ ws ∨ ∃ a ∈ ws, wakeAll a = pc := by
  unfold wakeIf at h
  split at h
  · exact Or.inl h
  · obtain ⟨a, ha, hfa⟩ := List.mem_map.mp h
    exact Or.inr ⟨a, ha, hfa⟩

theorem getElem?_wakeIf (ps : List Path) (ws : List WorkerPc) (j : Nat) :
    (wakeIf ps ws)[j]? = (ws[j]?).map wakeAll ∨ (wakeIf ps ws)[j]? = ws[j]? := by
  unfold wakeIf
  split
  · exact Or.inr rfl
  · exact Or.inl (List.getElem?_map wakeAll ws j)

/-! ### Heredity of the tree-wide predicates along lookup -/

theorem lookupChild_panicFree {es : EntryList} {n : OsString} {c : FsTree}
    (hpf : es.panicFree = true) (h : lookupChild es n = some c) :
    c.panicFreeTree = true := by
  induction es with
  | nil => simp [lookupChild] at h
  | consErr rest ih => simp [EntryList.panicFree] at hpf
  | consOk name so m rd sub rest ihsub ih =>
    simp only [EntryList.panicFree, Bool.and_eq_true] at hpf
    simp only [lookupChild] at h
    split at h
    · cases h; exact hpf.1.2
    · exact ih hpf.2 h

theorem lookup_panicFree {fs : FsTree} {p : Path} {t : FsTree}
    (hpf : fs.panicFreeTree = true) (h : lookup fs p = some t) :
    t.panicFreeTree = true := by
  induction p generalizing fs with
  | nil => simp only [lookup, Option.some.injEq] at h; subst h; exact hpf
  | cons n rest ih =>
    simp only [lookup] at h
    rcases hc : lookupChild fs.entries n with _ | c
    · rw [hc] at h; simp at h
    · rw [hc] at h
      exact ih (lookupChild_panicFree hpf hc) h

theorem lookupChild_unique {es : EntryList} {n : OsString} {c : FsTree}
    (hu : es.uniqueEntries = true) (h : lookupChild es n = some c) :
    c.uniqueTree = true := by
  induction es with
  | nil => simp [lookupChild] at h
  | consErr rest ih =>
    simp only [EntryList.uniqueEntries] at hu
    exact ih hu (by simpa [lookupChild] using h)
  | consOk name so m rd sub rest ihsub ih =>
    simp only [EntryList.uniqueEntries, Bool.and_eq_true] at hu
    simp only [lookupChild] at h
    split at h
    · cases h
      simp only [FsTree.uniqueTree, Bool.and_eq_true]
      exact hu.1
    · exact ih hu.2 h

theorem lookup_unique {fs : FsTree} {p : Path} {t : FsTree}
    (hu : fs.uniqueTree = true) (h : lookup fs p = some t) :
    t.uniqueTree = true := by
  induction p generalizing fs with
  | nil => simp only [lookup, Option.some.injEq] at h; subst h; exact hu
  | cons n rest ih =>
    simp only [lookup] at h
    rcases hc : lookupChild fs.entries n with _ | c
    · rw [hc] at h; simp at h
    · rw [hc] at h
      simp only [FsTree.uniqueTree, Bool.and_eq_true] at hu
      exact ih (lookupChild_unique hu.2 hc) h

/-! ### A panic-free tree never triggers the unwrap panics -/

theorem readDir_panicFree {fs : FsTree} {p : Path} {es : EntryList}
    (hpf : fs.panicFreeTree = true) (h : readDir fs p = some es) :
    es.panicFree = true := by
  unfold readDir at h
  rcases hl : lookup fs p with _ | t
  · rw [hl] at h; exact absurd h (by simp)
  · rw [hl] at h
    change (if t.rdOk = true then some t.entries else none) = some es at h
    by_cases hr : t.rdOk = true
    · rw [if_pos hr] at h
      have ht := lookup_panicFree hpf hl
      have hes : t.entries = es := by injection h
      rw [← hes]
      exact ht
    · rw [if_neg hr] at h
      exact absurd h (by simp)

theorem processEntries_panic_none {σ : Type} (vis : Visitor σ) (dp : Path)
    (dm : Metadata) (es : EntryList) (hpf : es.panicFree = true) :
    ∀ s : σ, (processEntries vis dp dm es s).panic = none := by
  induction es with
  | nil => intro s; rfl
  | consErr rest ih =>
    exact absurd hpf (by simp [EntryList.panicFree])
  | consOk name so cm crd sub rest ihsub ih =>
    intro s
    simp only [EntryList.panicFree, Bool.and_eq_true] at hpf
    simp only [processEntries]
    split
    · split
      · simp only [hpf.1.1, if_true]
        simpa using ih hpf.2 _
      · simpa using ih hpf.2 _
      · simpa using ih hpf.2 _
    · exact ih hpf.2 s

theorem processDir_panic_none {σ : Type} (vis : Visitor σ) {fs : FsTree}
    (p : Path) (m : Metadata) (s : σ) (hpf : fs.panicFreeTree = true) :
    (processDir vis fs p m s).panic = none := by
  unfold processDir
  split
  · rfl
  · rcases hrd : readDir fs p with _ | es
    · rfl
    · simpa using processEntries_panic_none vis p m es (readDir_panicFree hpf hrd) _

theorem handleItem_panic_none {σ : Type} (vis : Visitor σ) {fs : FsTree}
    (p : Path) (s : σ) (hpf : fs.panicFreeTree = true) :
    (handleItem vis fs p s).panic = none := by
  unfold handleItem
  rcases hm : symlinkMetadata fs p with _ | m
  · rfl
  · rcases m with ⟨ft, dev, ino⟩
    rcases ft with _ | _ | _
    · rfl
    · exact processDir_panic_none vis p _ s hpf
    · rfl

/-! ### The protocol invariant -/

/-- Invariant of the visit_paths protocol, preserved by every step:
the worker list has one slot per worker; the shared active counter equals
the number of workers counted active; a parked dispatcher was preceded by
at least one counted worker; once the finished flag is set no worker is
parked and the dispatcher is past its polling loop; the join phase only
starts after the finished flag is set and joins workers in order; a
finished dispatcher has joined every worker; a panic-free tree never kills
a worker. -/
structure Inv {σ : Type} (sys : Sys σ) (s : WalkState σ) : Prop where
  lenW : s.ws.length = sys.numWorkers
  act : s.active = (countActive s.ws : Int)
  mwait : s.mpc = .waitingMain → 1 ≤ countActive s.ws
  finW : s.finished = true → ∀ pc ∈ s.ws, pc ≠ .waiting
  finM : s.finished = true → s.mpc ≠ .polling ∧ s.mpc ≠ .waitingMain
  joinI : ∀ k, s.mpc = .joining k → s.finished = true ∧ k ≤ sys.numWorkers ∧
    ∀ j, j < k → s.ws[j]? = some .exited
  doneI : s.mpc = .done → s.finished = true ∧
    ∀ j, j < sys.numWorkers → s.ws[j]? = some .exited
  nopanic : FsTree.panicFreeTree sys.fs = true → ∀ pc ∈ s.ws, pc ≠ .panicked

theorem init_inv {σ : Type} (sys : Sys σ) : Inv sys (initState sys) := by
  constructor
  · simp [initState]
  · simp [initState, countActive, List.countP_replicate, countedPc]
  · intro h; simp [initState] at h
  · intro h; simp [initState] at h
  · intro h; simp [initState] at h
  · intro k h; simp [initState] at h
  · intro h; simp [initState] at h
  · intro _ pc hpc
    simp only [initState] at hpc
    rcases List.mem_replicate.mp hpc with ⟨_, h⟩
    subst h; simp

/-! ### Preservation of the invariant -/

theorem lt_length_of_getElem? {α : Type} {l : List α} {i : Nat} {a : α}
    (h : l[i]? = some a) : i < l.length := by
  rcases List.getElem?_eq_some.mp h with ⟨hl, _⟩
  exact hl

theorem countActive_set (ws : List WorkerPc) (i : Nat) (a b : WorkerPc)
    (h : ws[i]? = some a) :
    countActive (ws.set i b) + (if countedPc a then 1 else 0)
      = countActive ws + (if countedPc b then 1 else 0) :=
  countP_set_eq countedPc ws i a b h

theorem notifyMain_ne_waitingMain (m : MainPc) : notifyMain m ≠ .waitingMain := by
  unfold notifyMain
  split <;> simp_all

theorem notifyMain_eq_of_ne {m : MainPc} (h : m ≠ .waitingMain) : notifyMain m = m := by
  unfold notifyMain
  split <;> simp_all

theorem notifyMain_joining {m : MainPc} {k : Nat} (h : notifyMain m = .joining k) :
    m = .joining k := by
  unfold notifyMain at h
  split at h <;> simp_all

theorem notifyMain_done {m : MainPc} (h : notifyMain m = .done) : m = .done := by
  unfold notifyMain at h
  split at h <;> simp_all

theorem countedPc_pcAfterItem (pan : Option Panic) :
    countedPc (pcAfterItem pan) = true := by
  unfold pcAfterItem
  split <;> rfl

theorem pcAfterItem_ne_waiting (pan : Option Panic) :
    pcAfterItem pan ≠ .waiting := by
  unfold pcAfterItem
  split <;> simp

/-- Preservation of the set-i-exited form of the join bookkeeping under a
single worker-slot update. -/
theorem set_preserves_exited (ws : List WorkerPc) (i : Nat) (a b : WorkerPc)
    (hi : ws[i]? = some a) (hbe : a ≠ .exited ∨ b = .exited) :
    ∀ j : Nat, ws[j]? = some WorkerPc.exited → (ws.set i b)[j]? = some WorkerPc.exited := by
  intro j hj
  by_cases hij : i = j
  · subst hij
    rw [hi] at hj
    injection hj with h2
    rcases hbe with h3 | h3
    · exact absurd h2 h3
    · rw [List.getElem?_set_self (lt_length_of_getElem? hi), h3]
  · rw [List.getElem?_set_ne hij]
    exact hj

/-- Invariant preservation for the steps that only move one worker between
uncounted-or-equally-counted locations, leaving the queue, the counter, the
finished flag and the dispatcher untouched. -/
theorem inv_set_worker {σ : Type} {sys : Sys σ} {s : WalkState σ} (hs : Inv sys s)
    (i : Nat) (a b : WorkerPc) (hi : s.ws[i]? = some a)
    (hcount : countedPc b = countedPc a)
    (hbw : b ≠ .waiting ∨ s.finished = false)
    (hbp : b ≠ .panicked)
    (hbe : a ≠ .exited ∨ b = .exited) :
    Inv sys ⟨s.queue, s.vs, s.active, s.finished, s.ws.set i b, s.mpc⟩ := by
  have hcnt := countActive_set s.ws i a b hi
  rw [hcount] at hcnt
  have hcnt' : countActive (s.ws.set i b) = countActive s.ws := by omega
  constructor
  · simpa using hs.lenW
  · simpa [hcnt'] using hs.act
  · intro hm
    simpa [hcnt'] using hs.mwait hm
  · intro hf pc hpc
    rcases List.mem_or_eq_of_mem_set hpc with h | h
    · exact hs.finW hf pc h
    · subst h
      rcases hbw with h | h
      · exact h
      · rw [hf] at h; cases h
  · exact hs.finM
  · intro k hm
    obtain ⟨h1, h2, h3⟩ := hs.joinI k hm
    exact ⟨h1, h2, fun j hj => set_preserves_exited s.ws i a b hi hbe j (h3 j hj)⟩
  · intro hm
    obtain ⟨h1, h2⟩ := hs.doneI hm
    exact ⟨h1, fun j hj => set_preserves_exited s.ws i a b hi hbe j (h2 j hj)⟩
  · intro hpf pc hpc
    rcases List.mem_or_eq_of_mem_set hpc with h | h
    · exact hs.nopanic hpf pc h
    · subst h; exact hbp

theorem step_inv {σ : Type} {sys : Sys σ} {s s' : WalkState σ}
    (hs : Inv sys s) (hstep : Step sys s s') : Inv sys s' := by
  cases hstep with
  | popItem i p q' r hi hq hr =>
    have hcnt := countActive_set s.ws i .busy (pcAfterItem r.panic) hi
    rw [countedPc_pcAfterItem] at hcnt
    have hcnt' : countActive (s.ws.set i (pcAfterItem r.panic)) = countActive s.ws := by
      simp [countedPc] at hcnt
      omega
    have hlen : (wakeIf r.pushes (s.ws.set i (pcAfterItem r.panic))).length
        = s.ws.length := by
      rw [length_wakeIf, List.length_set]
    have hcw : countActive (wakeIf r.pushes (s.ws.set i (pcAfterItem r.panic)))
        = countActive s.ws := by
      rw [countActive_wakeIf, hcnt']
    constructor
    · simpa [hlen] using hs.lenW
    · simpa [hcw] using hs.act
    · intro hm
      simpa [hcw] using hs.mwait hm
    · intro hf pc hpc
      rcases mem_wakeIf hpc with h | ⟨a', ha', hwa⟩
      · rcases List.mem_or_eq_of_mem_set h with h2 | h2
        · exact hs.finW hf pc h2
        · subst h2; exact pcAfterItem_ne_waiting r.panic
      · rw [← hwa]; exact wakeAll_ne_waiting a'
    · exact hs.finM
    · intro k hm
      obtain ⟨h1, h2, h3⟩ := hs.joinI k hm
      refine ⟨h1, h2, fun j hj => ?_⟩
      have hset := set_preserves_exited s.ws i .busy (pcAfterItem r.panic) hi
        (Or.inl (by decide)) j (h3 j hj)
      rcases getElem?_wakeIf r.pushes (s.ws.set i (pcAfterItem r.panic)) j with h4 | h4
      · rw [h4, hset]; rfl
      · rw [h4, hset]
    · intro hm
      obtain ⟨h1, h2⟩ := hs.doneI hm
      have hibound : i < sys.numWorkers := hs.lenW ▸ lt_length_of_getElem? hi
      have := h2 i hibound
      rw [hi] at this
      injection this with h3
      cases h3
    · intro hpf pc hpc
      have hpan : r.panic = none := by
        rw [← hr]; exact handleItem_panic_none sys.vis p s.vs hpf
      rcases mem_wakeIf hpc with h | ⟨a', ha', hwa⟩
      · rcases List.mem_or_eq_of_mem_set h with h2 | h2
        · exact hs.nopanic hpf pc h2
        · subst h2
          simp [pcAfterItem, hpan]
      · intro he
        rw [he] at hwa
        have ha'p := wakeAll_eq_panicked hwa
        subst ha'p
        rcases List.mem_or_eq_of_mem_set ha' with h2 | h2
        · exact hs.nopanic hpf .panicked h2 rfl
        · rw [hpan] at h2
          simp [pcAfterItem] at h2
  | popEmpty i hi hq =>
    exact inv_set_worker hs i .busy .afterPopEmpty hi rfl (Or.inl (by decide))
      (by decide) (Or.inl (by decide))
  | decr i hi =>
    have hcnt : countActive (s.ws.set i .preWait) + 1 = countActive s.ws := by
      simpa [countedPc] using countActive_set s.ws i .afterPopEmpty .preWait hi
    constructor
    · simpa using hs.lenW
    · have := hs.act
      show s.active - 1 = (countActive (s.ws.set i .preWait) : Int)
      omega
    · intro hm
      exact absurd hm (notifyMain_ne_waitingMain s.mpc)
    · intro hf pc hpc
      rcases List.mem_or_eq_of_mem_set hpc with h | h
      · exact hs.finW hf pc h
      · subst h; decide
    · intro hf
      obtain ⟨h1, h2⟩ := hs.finM hf
      rw [notifyMain_eq_of_ne h2]
      exact ⟨h1, h2⟩
    · intro k hm
      have hm' := notifyMain_joining hm
      obtain ⟨h1, h2, h3⟩ := hs.joinI k hm'
      exact ⟨h1, h2, fun j hj =>
        set_preserves_exited s.ws i .afterPopEmpty .preWait hi
          (Or.inl (by decide)) j (h3 j hj)⟩
    · intro hm
      have hm' := notifyMain_done hm
      obtain ⟨h1, h2⟩ := hs.doneI hm'
      have hibound : i < sys.numWorkers := hs.lenW ▸ lt_length_of_getElem? hi
      have := h2 i hibound
      rw [hi] at this
      injection this with h3
      cases h3
    · intro hpf pc hpc
      rcases List.mem_or_eq_of_mem_set hpc with h | h
      · exact hs.nopanic hpf pc h
      · subst h; decide
  | parkExit i hi hf =>
    exact inv_set_worker hs i .preWait .exited hi rfl (Or.inl (by decide))
      (by decide) (Or.inr rfl)
  | parkSleep i hi hf =>
    exact inv_set_worker hs i .preWait .waiting hi rfl (Or.inr hf)
      (by decide) (Or.inl (by decide))
  | wokeExit i hi hf =>
    exact inv_set_worker hs i .wokeCheck .exited hi rfl (Or.inl (by decide))
      (by decide) (Or.inr rfl)
  | wokeInc i hi hf =>
    have hcnt : countActive (s.ws.set i .busy) = countActive s.ws + 1 := by
      simpa [countedPc] using countActive_set s.ws i .wokeCheck .busy hi
    constructor
    · simpa using hs.lenW
    · have := hs.act
      show s.active + 1 = (countActive (s.ws.set i .busy) : Int)
      omega
    · intro hm
      have := hs.mwait hm
      show 1 ≤ countActive (s.ws.set i .busy)
      omega
    · intro hf2
      rw [hf] at hf2; cases hf2
    · intro hf2
      rw [hf] at hf2; cases hf2
    · intro k hm
      have := (hs.joinI k hm).1
      rw [hf] at this; cases this
    · intro hm
      have := (hs.doneI hm).1
      rw [hf] at this; cases this
    · intro hpf pc hpc
      rcases List.mem_or_eq_of_mem_set hpc with h | h
      · exact hs.nopanic hpf pc h
      · subst h; decide
  | mainWait hm ha =>
    constructor
    · exact hs.lenW
    · exact hs.act
    · intro _
      have hne : (countActive s.ws : Int) ≠ 0 := by rw [← hs.act]; exact ha
      show 1 ≤ countActive s.ws
      omega
    · exact hs.finW
    · intro hf
      exact absurd hm (hs.finM hf).1
    · intro k hm2
      exact nomatch hm2
    · intro hm2
      exact nomatch hm2
    · exact hs.nopanic
  | mainFinish hm ha =>
    constructor
    · simpa using hs.lenW
    · simpa [countActive_map_wakeAll] using hs.act
    · intro hm2
      exact nomatch hm2
    · intro _ pc hpc
      obtain ⟨a, ha', hwa⟩ := List.mem_map.mp hpc
      rw [← hwa]
      exact wakeAll_ne_waiting a
    · intro _
      exact ⟨(fun h => nomatch h), (fun h => nomatch h)⟩
    · intro k hm2
      injection hm2 with h2
      refine ⟨rfl, ?_, ?_⟩
      · rw [← h2]; exact Nat.zero_le _
      · intro j hj
        rw [← h2] at hj
        exact absurd hj (Nat.not_lt_zero j)
    · intro hm2
      exact nomatch hm2
    · intro hpf pc hpc
      obtain ⟨a, ha', hwa⟩ := List.mem_map.mp hpc
      intro he
      rw [he] at hwa
      exact hs.nopanic hpf a ha' (wakeAll_eq_panicked hwa)
  | mainJoin k hm hj =>
    obtain ⟨h1, h2, h3⟩ := hs.joinI k hm
    constructor
    · exact hs.lenW
    · exact hs.act
    · intro hm2
      exact nomatch hm2
    · exact hs.finW
    · intro _
      exact ⟨(fun h => nomatch h), (fun h => nomatch h)⟩
    · intro k' hm2
      injection hm2 with h4
      subst h4
      refine ⟨h1, ?_, ?_⟩
      · have : k < s.ws.length := lt_length_of_getElem? hj
        rw [hs.lenW] at this
        omega
      · intro j hjk
        rcases Nat.lt_succ_iff_lt_or_eq.mp hjk with h5 | h5
        · exact h3 j h5
        · subst h5; exact hj
    · intro hm2
      exact nomatch hm2
    · exact hs.nopanic
  | mainDone hm =>
    obtain ⟨h1, h2, h3⟩ := hs.joinI sys.numWorkers hm
    constructor
    · exact hs.lenW
    · exact hs.act
    · intro hm2
      exact nomatch hm2
    · exact hs.finW
    · intro _
      exact ⟨(fun h => nomatch h), (fun h => nomatch h)⟩
    · intro k' hm2
      exact nomatch hm2
    · intro _
      exact ⟨h1, fun j hj => h3 j hj⟩
    · exact hs.nopanic

/-- Every reachable state of a visit_paths call satisfies the invariant. -/
theorem reachable_inv {σ : Type} {sys : Sys σ} {s : WalkState σ}
    (h : Reachable sys s) : Inv sys s := by
  induction h with
  | refl => exact init_inv sys
  | tail _ hstep ih => exact step_inv ih hstep

/-! ### Termination measure

Every protocol step strictly decreases a lexicographic measure: remaining
tree work in the queue, then the unset finished flag, then the summed
distance of each worker to its parked or exited location, then the
dispatcher's distance to returning.  The measure is flattened into a single
natural number, which is sound because all components except the tree work
are bounded in terms of the worker count. -/

/-- Steps a worker can still take before blocking or exiting. -/
def wRank : WorkerPc → Nat
  | .wokeCheck => 5
  | .busy => 4
  | .afterPopEmpty => 3
  | .preWait => 2
  | .waiting => 1
  | .exited => 0
  | .panicked => 0

/-- Steps the dispatcher can still take before blocking or returning. -/
def mRank (n : Nat) : MainPc → Nat
  | .polling => n + 3
  | .waitingMain => n + 2
  | .joining k => n + 1 - k
  | .done => 0

/-- Total tree work sitting in the queue. -/
def treeWork (fs : FsTree) (q : List Path) : Nat := (q.map (sizeAt fs)).sum

/-- Summed worker ranks. -/
def sumRank (ws : List WorkerPc) : Nat := (ws.map wRank).sum

/-- Rank of the finished flag (unset counts one pending dispatcher phase). -/
def finRank (b : Bool) : Nat := if b then 0 else 1

/-- Flattening of the four measure components. -/
def flatten (n a b c d : Nat) : Nat :=
  ((a * 2 + b) * (5 * n + 1) + c) * (n + 4) + d

/-- Measure of a walk state. -/
def natMeasure {σ : Type} (sys : Sys σ) (s : WalkState σ) : Nat :=
  flatten sys.numWorkers (treeWork sys.fs s.queue) (finRank s.finished)
    (sumRank s.ws) (mRank sys.numWorkers s.mpc)

theorem wRank_le_five (pc : WorkerPc) : wRank pc ≤ 5 := by
  cases pc <;> simp [wRank]

theorem mRank_le (n : Nat) (m : MainPc) : mRank n m ≤ n + 3 := by
  rcases m with _ | _ | k | _
  · exact Nat.le_refl _
  · exact Nat.le_succ_of_le (Nat.le_refl _)
  · show n + 1 - k ≤ n + 3
    omega
  · exact Nat.zero_le _

theorem finRank_le_one (b : Bool) : finRank b ≤ 1 := by
  cases b <;> simp [finRank]

theorem sumRank_le (ws : List WorkerPc) : sumRank ws ≤ 5 * ws.length :=
  sum_map_le_mul wRank 5 ws (fun pc _ => wRank_le_five pc)

theorem sumRank_set (ws : List WorkerPc) (i : Nat) (a b : WorkerPc)
    (h : ws[i]? = some a) :
    sumRank (ws.set i b) + wRank a = sumRank ws + wRank b :=
  sum_map_set_eq wRank ws i a b h

theorem treeWork_append (fs : FsTree) (q1 q2 : List Path) :
    treeWork fs (q1 ++ q2) = treeWork fs q1 + treeWork fs q2 := by
  simp [treeWork]

theorem sizeAt_pos (fs : FsTree) (p : Path) : 1 ≤ sizeAt fs p := by
  unfold sizeAt
  rcases lookup fs p with _ | t
  · exact Nat.le_refl 1
  · show 1 ≤ t.size
    unfold FsTree.size
    omega

/-- Core lexicographic comparison after flattening: a strict drop in the
combined first component dominates the bounded tail components. -/
theorem flat_core_lt {n x x' c c' d d' : Nat} (hx : x' < x)
    (hc' : c' ≤ 5 * n) (hd' : d' ≤ n + 3) :
    (x' * (5 * n + 1) + c') * (n + 4) + d' < (x * (5 * n + 1) + c) * (n + 4) + d := by
  have h1 : (x' * (5 * n + 1) + c') * (n + 4) + d'
      ≤ x' * ((5 * n + 1) * (n + 4)) + (5 * n * (n + 4) + (n + 3)) := by
    have hm : (x' * (5 * n + 1) + c') * (n + 4)
        ≤ (x' * (5 * n + 1) + 5 * n) * (n + 4) :=
      Nat.mul_le_mul_right (n + 4) (Nat.add_le_add_left hc' _)
    calc (x' * (5 * n + 1) + c') * (n + 4) + d'
        ≤ (x' * (5 * n + 1) + 5 * n) * (n + 4) + (n + 3) := Nat.add_le_add hm hd'
      _ = x' * ((5 * n + 1) * (n + 4)) + (5 * n * (n + 4) + (n + 3)) := by ring
  have h2 : 5 * n * (n + 4) + (n + 3) < (5 * n + 1) * (n + 4) := by
    have hx2 : (5 * n + 1) * (n + 4) = 5 * n * (n + 4) + (n + 4) := by ring
    linarith
  have h3 : x' * ((5 * n + 1) * (n + 4)) + (5 * n + 1) * (n + 4)
      ≤ x * ((5 * n + 1) * (n + 4)) := by
    have hxx : x' + 1 ≤ x := hx
    calc x' * ((5 * n + 1) * (n + 4)) + (5 * n + 1) * (n + 4)
        = (x' + 1) * ((5 * n + 1) * (n + 4)) := by ring
      _ ≤ x * ((5 * n + 1) * (n + 4)) := Nat.mul_le_mul_right _ hxx
  have h4 : x * ((5 * n + 1) * (n + 4)) ≤ (x * (5 * n + 1) + c) * (n + 4) + d := by
    calc x * ((5 * n + 1) * (n + 4)) = x * (5 * n + 1) * (n + 4) := by ring
      _ ≤ (x * (5 * n + 1) + c) * (n + 4) :=
        Nat.mul_le_mul_right _ (Nat.le_add_right _ _)
      _ ≤ (x * (5 * n + 1) + c) * (n + 4) + d := Nat.le_add_right _ _
  linarith

/-- Strict drop in the third component with the first two fixed. -/
theorem flat_core_lt_c {n x c c' d d' : Nat} (hc : c' < c) (hd' : d' ≤ n + 3) :
    (x * (5 * n + 1) + c') * (n + 4) + d' < (x * (5 * n + 1) + c) * (n + 4) + d := by
  have h1 : (x * (5 * n + 1) + c') * (n + 4) + d'
      < (x * (5 * n + 1) + c') * (n + 4) + (n + 4) :=
    Nat.add_lt_add_left (by omega) _
  have h2 : (x * (5 * n + 1) + c') * (n + 4) + (n + 4)
      = (x * (5 * n + 1) + (c' + 1)) * (n + 4) := by ring
  have h3 : (x * (5 * n + 1) + (c' + 1)) * (n + 4)
      ≤ (x * (5 * n + 1) + c) * (n + 4) :=
    Nat.mul_le_mul_right _ (Nat.add_le_add_left (by omega) _)
  have h4 : (x * (5 * n + 1) + c) * (n + 4)
      ≤ (x * (5 * n + 1) + c) * (n + 4) + d := Nat.le_add_right _ _
  linarith

theorem flatten_lt_of_tw {n a a' b b' c c' d d' : Nat} (ha : a' < a)
    (hb' : b' ≤ 1) (hc' : c' ≤ 5 * n) (hd' : d' ≤ n + 3) :
    flatten n a' b' c' d' < flatten n a b c d := by
  unfold flatten
  exact flat_core_lt (by omega) hc' hd'

theorem flatten_lt_of_fin {n a b b' c c' d d' : Nat} (hb : b' < b)
    (hc' : c' ≤ 5 * n) (hd' : d' ≤ n + 3) :
    flatten n a b' c' d' < flatten n a b c d := by
  unfold flatten
  exact flat_core_lt (by omega) hc' hd'

theorem flatten_lt_of_rank {n a b c c' d d' : Nat} (hc : c' < c)
    (hd' : d' ≤ n + 3) :
    flatten n a b c' d' < flatten n a b c d := by
  unfold flatten
  exact flat_core_lt_c hc hd'

theorem flatten_lt_of_main {n a b c d d' : Nat} (hd : d' < d) :
    flatten n a b c d' < flatten n a b c d := by
  unfold flatten
  exact Nat.add_lt_add_left hd _

/-! ### The pushes of one directory carry strictly less work than it -/

theorem lookup_append_singleton (fs : FsTree) (p : Path) (n : OsString) :
    lookup fs (p ++ [n]) =
      match lookup fs p with
      | some t => lookupChild t.entries n
      | none => none := by
  induction p generalizing fs with
  | nil =>
    show lookup fs [n] = lookupChild fs.entries n
    unfold lookup
    rcases lookupChild fs.entries n with _ | c
    · rfl
    · rfl
  | cons m rest ih =>
    simp only [List.cons_append, lookup]
    rcases hm : lookupChild fs.entries m with _ | c
    · rfl
    · exact ih c

/-- Sum of the subtree sizes of the paths pushed while looping over a
suffix of the entries of the directory at dp, bounded by the node count of
that suffix; name uniqueness ties each pushed path back to its own entry. -/
theorem processEntries_pushes_le {σ : Type} (vis : Visitor σ) (fs : FsTree)
    (dp : Path) (dm : Metadata) (t : FsTree) (hbase : lookup fs dp = some t) :
    ∀ (es : EntryList) (s : σ),
      (∀ n, n ∈ es.names → lookupChild t.entries n = lookupChild es n) →
      es.names.Nodup →
      (((processEntries vis dp dm es s).pushes.map (sizeAt fs)).sum
        ≤ es.sizeEntries) := by
  intro es
  induction es with
  | nil => intro s _ _; simp [processEntries]
  | consErr rest ih => intro s _ _; simp [processEntries, EntryList.sizeEntries]
  | consOk name so cm crd sub rest ihsub ih =>
    intro s hagree hnd
    have hnames : (EntryList.consOk name so cm crd sub rest).names
        = name :: rest.names := rfl
    rw [hnames] at hagree hnd
    have hnd' : rest.names.Nodup := hnd.of_cons
    have hname_notin : name ∉ rest.names := (List.nodup_cons.mp hnd).1
    have hagree' : ∀ n, n ∈ rest.names → lookupChild t.entries n = lookupChild rest n := by
      intro n hn
      have hne : name ≠ n := fun he => hname_notin (he ▸ hn)
      have h0 := hagree n (List.mem_cons_of_mem _ hn)
      rw [h0]
      show lookupChild (EntryList.consOk name so cm crd sub rest) n = lookupChild rest n
      simp only [lookupChild]
      rw [if_neg hne]
    have hsizeAt : sizeAt fs (dp ++ [name]) = 1 + sub.sizeEntries := by
      unfold sizeAt
      rw [lookup_append_singleton fs dp name, hbase]
      show (match lookupChild t.entries name with
        | some u => u.size
        | none => 1) = 1 + sub.sizeEntries
      rw [hagree name (List.mem_cons_self name rest.names)]
      show (match lookupChild (EntryList.consOk name so cm crd sub rest) name with
        | some u => u.size
        | none => 1) = 1 + sub.sizeEntries
      simp [lookupChild, FsTree.size]
    show ((processEntries vis dp dm (.consOk name so cm crd sub rest) s).pushes.map
      (sizeAt fs)).sum ≤ 1 + sub.sizeEntries + rest.sizeEntries
    unfold processEntries
    by_cases hso : so = true
    · rw [if_pos hso]
      split
      · by_cases hu8 : validUtf8 name = true
        · rw [if_pos hu8]
          have hrest := ih (vis.on_dir_exit s dp dm) hagree' hnd'
          simp only [List.map_cons, List.sum_cons, hsizeAt]
          omega
        · rw [if_neg hu8]
          simp
      · simpa using Nat.le_trans (ih _ hagree' hnd')
          (Nat.le_add_left rest.sizeEntries (1 + sub.sizeEntries))
      · simpa using Nat.le_trans (ih _ hagree' hnd')
          (Nat.le_add_left rest.sizeEntries (1 + sub.sizeEntries))
    · rw [if_neg hso]
      exact Nat.le_trans (ih s hagree' hnd')
        (Nat.le_add_left rest.sizeEntries (1 + sub.sizeEntries))

/-- Processing one popped item strictly shrinks the outstanding tree work:
whatever it pushes weighs strictly less than the popped path itself. -/
theorem handleItem_pushes_lt {σ : Type} (vis : Visitor σ) {fs : FsTree}
    (p : Path) (s : σ) (hu : fs.uniqueTree = true) :
    ((handleItem vis fs p s).pushes.map (sizeAt fs)).sum < sizeAt fs p := by
  have hpos := sizeAt_pos fs p
  unfold handleItem
  rcases hm : symlinkMetadata fs p with _ | m
  · simpa using hpos
  · have hlk : ∃ t, lookup fs p = some t ∧ t.meta = m ∧ t.statOk = true := by
      unfold symlinkMetadata at hm
      rcases hl : lookup fs p with _ | t
      · rw [hl] at hm; exact absurd hm (by simp)
      · rw [hl] at hm
        change (if t.statOk = true then some t.meta else none) = some m at hm
        by_cases hso : t.statOk = true
        · rw [if_pos hso] at hm
          have h2 : t.meta = m := by simpa using hm
          exact ⟨t, rfl, h2, hso⟩
        · rw [if_neg hso] at hm
          exact absurd hm (by simp)
    obtain ⟨t, hl, hmeta, hso⟩ := hlk
    obtain ⟨ft, dev, ino⟩ := m
    rcases ft with _ | _ | _
    · simpa using hpos
    · show ((processDir vis fs p ⟨.dir, dev, ino⟩ s).pushes.map (sizeAt fs)).sum
        < sizeAt fs p
      unfold processDir
      rcases hde : vis.on_dir_enter s p ⟨.dir, dev, ino⟩ with ⟨s1, b⟩
      rcases b with _ | _
      · simpa using hpos
      · rcases hrd : readDir fs p with _ | es
        · simpa using hpos
        · have hest : es = t.entries := by
            unfold readDir at hrd
            rw [hl] at hrd
            change (if t.rdOk = true then some t.entries else none) = some es at hrd
            by_cases hr : t.rdOk = true
            · rw [if_pos hr] at hrd
              injection hrd with h2
              exact h2.symm
            · rw [if_neg hr] at hrd
              exact absurd hrd (by simp)
          subst hest
          have hnd : t.entries.names.Nodup := by
            have h0 := lookup_unique hu hl
            simp only [FsTree.uniqueTree, Bool.and_eq_true, decide_eq_true_eq] at h0
            exact h0.1
          have hle := processEntries_pushes_le vis fs p ⟨.dir, dev, ino⟩ t hl
            t.entries s1 (by intro n hn; rfl) hnd
          have hsz : sizeAt fs p = 1 + t.entries.sizeEntries := by
            unfold sizeAt
            rw [hl]
            rfl
          show ((processEntries vis p ⟨.dir, dev, ino⟩ t.entries s1).pushes.map
            (sizeAt fs)).sum < sizeAt fs p
          rw [hsz]
          omega
    · simpa using hpos

/-! ### Every step strictly decreases the measure -/

theorem step_measure {σ : Type} {sys : Sys σ} {s s' : WalkState σ}
    (hu : sys.fs.uniqueTree = true) (hs : Inv sys s) (hstep : Step sys s s') :
    natMeasure sys s' < natMeasure sys s := by
  cases hstep with
  | popItem i p q' r hi hq hr =>
    have hq' : s.queue = q' ++ [p] := queuePop_eq_some hq
    have hlt : (r.pushes.map (sizeAt sys.fs)).sum < sizeAt sys.fs p := by
      rw [← hr]; exact handleItem_pushes_lt sys.vis p s.vs hu
    have hc' : sumRank (wakeIf r.pushes (s.ws.set i (pcAfterItem r.panic)))
        ≤ 5 * sys.numWorkers := by
      have hlen : (wakeIf r.pushes (s.ws.set i (pcAfterItem r.panic))).length
          = s.ws.length := by
        rw [length_wakeIf, List.length_set]
      calc sumRank (wakeIf r.pushes (s.ws.set i (pcAfterItem r.panic)))
          ≤ 5 * (wakeIf r.pushes (s.ws.set i (pcAfterItem r.panic))).length :=
            sumRank_le _
        _ = 5 * sys.numWorkers := by rw [hlen, hs.lenW]
    have ha : treeWork sys.fs (r.pushes.foldl queuePush q')
        < treeWork sys.fs s.queue := by
      rw [foldl_queuePush, hq', treeWork_append, treeWork_append]
      have h1 : treeWork sys.fs r.pushes = (r.pushes.map (sizeAt sys.fs)).sum := rfl
      have h2 : treeWork sys.fs [p] = sizeAt sys.fs p := by simp [treeWork]
      omega
    exact flatten_lt_of_tw ha (finRank_le_one _) hc' (mRank_le _ _)
  | popEmpty i hi hq =>
    have hrank := sumRank_set s.ws i .busy .afterPopEmpty hi
    simp only [wRank] at hrank
    refine flatten_lt_of_rank ?_ (mRank_le _ _)
    show sumRank (s.ws.set i .afterPopEmpty) < sumRank s.ws
    omega
  | decr i hi =>
    have hrank := sumRank_set s.ws i .afterPopEmpty .preWait hi
    simp only [wRank] at hrank
    refine flatten_lt_of_rank ?_ (mRank_le _ _)
    show sumRank (s.ws.set i .preWait) < sumRank s.ws
    omega
  | parkExit i hi hf =>
    have hrank := sumRank_set s.ws i .preWait .exited hi
    simp only [wRank] at hrank
    refine flatten_lt_of_rank ?_ (mRank_le _ _)
    show sumRank (s.ws.set i .exited) < sumRank s.ws
    omega
  | parkSleep i hi hf =>
    have hrank := sumRank_set s.ws i .preWait .waiting hi
    simp only [wRank] at hrank
    refine flatten_lt_of_rank ?_ (mRank_le _ _)
    show sumRank (s.ws.set i .waiting) < sumRank s.ws
    omega
  | wokeExit i hi hf =>
    have hrank := sumRank_set s.ws i .wokeCheck .exited hi
    simp only [wRank] at hrank
    refine flatten_lt_of_rank ?_ (mRank_le _ _)
    show sumRank (s.ws.set i .exited) < sumRank s.ws
    omega
  | wokeInc i hi hf =>
    have hrank := sumRank_set s.ws i .wokeCheck .busy hi
    simp only [wRank] at hrank
    refine flatten_lt_of_rank ?_ (mRank_le _ _)
    show sumRank (s.ws.set i .busy) < sumRank s.ws
    omega
  | mainWait hm ha =>
    have hd : mRank sys.numWorkers .waitingMain < mRank sys.numWorkers s.mpc := by
      rw [hm]
      simp [mRank]
    exact flatten_lt_of_main hd
  | mainFinish hm ha =>
    have hfin : s.finished = false := by
      by_cases hsf : s.finished = true
      · exact absurd hm (hs.finM hsf).1
      · simpa using hsf
    have hb : finRank true < finRank s.finished := by
      rw [hfin]
      simp [finRank]
    have hc' : sumRank (s.ws.map wakeAll) ≤ 5 * sys.numWorkers := by
      calc sumRank (s.ws.map wakeAll) ≤ 5 * (s.ws.map wakeAll).length := sumRank_le _
        _ = 5 * sys.numWorkers := by rw [List.length_map, hs.lenW]
    exact flatten_lt_of_fin hb hc' (mRank_le _ _)
  | mainJoin k hm hj =>
    have hkn : k < sys.numWorkers := hs.lenW ▸ lt_length_of_getElem? hj
    have hd : mRank sys.numWorkers (.joining (k + 1))
        < mRank sys.numWorkers s.mpc := by
      rw [hm]
      simp only [mRank]
      omega
    exact flatten_lt_of_main hd
  | mainDone hm =>
    have hd : mRank sys.numWorkers .done < mRank sys.numWorkers s.mpc := by
      rw [hm]
      simp only [mRank]
      omega
    exact flatten_lt_of_main hd

/-! ### Termination and the shape of stuck states -/

theorem no_descending_nat (g : Nat → Nat) (h : ∀ n, g (n + 1) < g n) : False := by
  have key : ∀ n, g n + n ≤ g 0 := by
    intro n
    induction n with
    | zero => omega
    | succ m ih =>
      have := h m
      omega
  have := key (g 0 + 1)
  omega

/-- In a reachable stuck state on a panic-free tree, the dispatcher has
returned and every worker has exited (and so was joined). -/
theorem stuck_done {σ : Type} {sys : Sys σ} {s : WalkState σ}
    (hpf : sys.fs.panicFreeTree = true)
    (hs : Inv sys s) (hstuck : Stuck sys s) :
    s.mpc = .done ∧ ∀ pc ∈ s.ws, pc = .exited := by
  have hworkers : ∀ (i : Nat) (pc : WorkerPc), s.ws[i]? = some pc →
      pc = .waiting ∨ pc = .exited := by
    intro i pc hi
    rcases pc with _ | _ | _ | _ | _ | _ | _
    · exfalso
      apply hstuck
      rcases hq : queuePop s.queue with _ | pq
      · exact ⟨_, Step.popEmpty i hi hq⟩
      · obtain ⟨p, q'⟩ := pq
        exact ⟨_, Step.popItem i p q' (handleItem sys.vis sys.fs p s.vs) hi hq rfl⟩
    · exact absurd ⟨_, Step.decr i hi⟩ hstuck
    · exfalso
      by_cases hf : s.finished = true
      · exact hstuck ⟨_, Step.parkExit i hi hf⟩
      · exact hstuck ⟨_, Step.parkSleep i hi (by simpa using hf)⟩
    · exact Or.inl rfl
    · exfalso
      by_cases hf : s.finished = true
      · exact hstuck ⟨_, Step.wokeExit i hi hf⟩
      · exact hstuck ⟨_, Step.wokeInc i hi (by simpa using hf)⟩
    · exact Or.inr rfl
    · exact absurd rfl
        (hs.nopanic hpf .panicked (List.mem_iff_getElem?.mpr ⟨i, hi⟩))
  have hcnt : countActive s.ws = 0 := by
    by_contra h0
    obtain ⟨pc, hmem, hp⟩ :=
      List.countP_pos_iff.mp (Nat.pos_of_ne_zero h0)
    obtain ⟨i, hi⟩ := List.mem_iff_getElem?.mp hmem
    rcases hworkers i pc hi with h | h
    · subst h; exact absurd hp (by simp [countedPc])
    · subst h; exact absurd hp (by simp [countedPc])
  have hall_of_fin : s.finished = true →
      ∀ (i : Nat) (pc : WorkerPc), s.ws[i]? = some pc → pc = .exited := by
    intro hfin i pc hi
    rcases hworkers i pc hi with h | h
    · subst h
      exact absurd rfl
        (hs.finW hfin .waiting (List.mem_iff_getElem?.mpr ⟨i, hi⟩))
    · exact h
  rcases hm : s.mpc with _ | _ | k | _
  · exfalso
    by_cases ha : s.active = 0
    · exact hstuck ⟨_, Step.mainFinish hm ha⟩
    · exact hstuck ⟨_, Step.mainWait hm ha⟩
  · exfalso
    have := hs.mwait hm
    omega
  · exfalso
    obtain ⟨hfin, hkN, hje⟩ := hs.joinI k hm
    by_cases hk : k < sys.numWorkers
    · have hklen : k < s.ws.length := by rw [hs.lenW]; exact hk
      have h1 : s.ws[k]? = some (s.ws[k]) := List.getElem?_eq_getElem hklen
      have h2 : s.ws[k] = .exited := hall_of_fin hfin k _ h1
      rw [h2] at h1
      exact hstuck ⟨_, Step.mainJoin k hm h1⟩
    · have hkn : k = sys.numWorkers := by omega
      subst hkn
      exact hstuck ⟨_, Step.mainDone hm⟩
  · refine ⟨rfl, ?_⟩
    intro pc hmem
    obtain ⟨i, hi⟩ := List.mem_iff_getElem?.mp hmem
    exact hall_of_fin (hs.doneI hm).1 i pc hi

/-! ### The example visitor CountingVisitor (countingvisitor/mod.rs) -/

/-- State of the example visitor: a file counter plus the set of device
ids collected from the seed paths (HashSet of u64 in the source). -/
structure CountingVisitor where
  file_count : Nat
  root_devnos : Finset Nat

/-- Trait implementation of VisitCallback for CountingVisitor
(countingvisitor/mod.rs lines 51-77): on_file_visit increments the file
count; on_dir_enter returns true iff the directory's device id lies in
root_devnos; the remaining hooks keep the default no-op bodies. -/
def countingVisitorImpl : Visitor CountingVisitor where
  on_file_visit := fun cv _ _ => { cv with file_count := cv.file_count + 1 }
  on_nonfile_visit := fun cv _ _ => cv
  on_dir_enter := fun cv _ m => (cv, decide (m.dev ∈ cv.root_devnos))
  on_dir_exit := fun cv _ _ => cv

/-- Constructor CountingVisitor::new (countingvisitor/mod.rs lines 81-94):
a zero file count, and the device ids of exactly those seed paths whose
symlink_metadata probe succeeds. -/
def CountingVisitor.new (fs : FsTree) (paths : List Path) : CountingVisitor :=
  { file_count := 0
    root_devnos := paths.foldl (fun acc p =>
      match symlinkMetadata fs p with
      | some m => insert m.dev acc
      | none => acc) ∅ }

theorem mem_collect_devnos (fs : FsTree) (paths : List Path) :
    ∀ (acc : Finset Nat) (d : Nat),
      (d ∈ paths.foldl (fun acc p =>
        match symlinkMetadata fs p with
        | some m => insert m.dev acc
        | none => acc) acc ↔
      d ∈ acc ∨ ∃ p ∈ paths, ∃ m, symlinkMetadata fs p = some m ∧ m.dev = d) := by
  induction paths with
  | nil => intro acc d; simp
  | cons q rest ih =>
    intro acc d
    simp only [List.foldl_cons]
    rcases hq : symlinkMetadata fs q with _ | m
    · rw [ih]
      constructor
      · rintro (h | ⟨p, hp, hm⟩)
        · exact Or.inl h
        · exact Or.inr ⟨p, List.mem_cons_of_mem _ hp, hm⟩
      · rintro (h | ⟨p, hp, m', hm', hd⟩)
        · exact Or.inl h
        · rcases List.mem_cons.mp hp with he | hp'
          · subst he
            rw [hq] at hm'
            cases hm'
          · exact Or.inr ⟨p, hp', m', hm', hd⟩
    · rw [ih]
      constructor
      · rintro (h | ⟨p, hp, hm⟩)
        · rcases Finset.mem_insert.mp h with he | ha
          · exact Or.inr ⟨q, List.mem_cons_self _ _, m, hq, he.symm⟩
          · exact Or.inl ha
        · exact Or.inr ⟨p, List.mem_cons_of_mem _ hp, hm⟩
      · rintro (h | ⟨p, hp, m', hm', hd⟩)
        · exact Or.inl (Finset.mem_insert_of_mem h)
        · rcases List.mem_cons.mp hp with he | hp'
          · subst he
            rw [hq] at hm'
            injection hm' with h2
            subst h2
            exact Or.inl (Finset.mem_insert.mpr (Or.inl hd.symm))
          · exact Or.inr ⟨p, hp', m', hm', hd⟩

/-! ### Concrete fixtures for evaluation -/

/-- Metadata fixture with the given file type on device 0, inode 0. -/
def meta0 (ft : FileType) : Metadata := ⟨ft, 0, 0⟩

/-- Visitor fixture: unit state, always descends. -/
def unitVisitor : Visitor Unit where
  on_file_visit := fun _ _ _ => ()
  on_nonfile_visit := fun _ _ _ => ()
  on_dir_enter := fun _ _ _ => ((), true)
  on_dir_exit := fun _ _ _ => ()

/-- Visitor fixture counting on_nonfile_visit invocations, always descends. -/
def nonfileCounter : Visitor Nat where
  on_file_visit := fun s _ _ => s
  on_nonfile_visit := fun s _ _ => s + 1
  on_dir_enter := fun s _ _ => (s, true)
  on_dir_exit := fun s _ _ => s

/-- Visitor fixture declining every descent. -/
def declineVisitor : Visitor Unit where
  on_file_visit := fun _ _ _ => ()
  on_nonfile_visit := fun _ _ _ => ()
  on_dir_enter := fun _ _ _ => ((), false)
  on_dir_exit := fun _ _ _ => ()

/-- Readable, stat-able empty directory. -/
def emptyDir : FsTree := ⟨true, meta0 .dir, true, .nil⟩

/-- Directory holding two regular files named a and b. -/
def twoFileDir : FsTree := ⟨true, meta0 .dir, true,
  .consOk [97] true (meta0 .file) true .nil
    (.consOk [98] true (meta0 .file) true .nil .nil)⟩

/-- Node of non-file non-directory type (symlink, device, fifo, socket). -/
def otherNode : FsTree := ⟨true, meta0 .other, true, .nil⟩

/-- Node on which the metadata probe fails. -/
def statFailNode : FsTree := ⟨false, meta0 .file, true, .nil⟩

/-- Directory with a single subdirectory child whose name is the byte 0xFF,
which is not valid UTF-8. -/
def badNameDir : FsTree := ⟨true, meta0 .dir, true,
  .consOk [255] true (meta0 .dir) true .nil .nil⟩

/-- Directory whose read_dir iterator yields an Err entry. -/
def errEntryDir : FsTree := ⟨true, meta0 .dir, true, .consErr .nil⟩

/-- System fixture: one worker, the empty directory seeded at its root. -/
def sysUnit : Sys Unit := ⟨emptyDir, [[]], 1, unitVisitor, ()⟩

/-- True on an on_dir_exit event. -/
def isDirExit : Event → Bool
  | .dirExit _ => true
  | _ => false

/-- Number of on_dir_exit invocations in an event list. -/
def countDirExit (evs : List Event) : Nat := evs.countP isDirExit

/-! ### Claim theorems -/

/-- C1 (code_bug evidence): the spec requires exactly one on_dir_exit per
entered directory, after enumeration completes; the code instead calls
on_dir_exit inside the child loop, once per successfully stat-ed child
(lib.rs lines 113-115).  Evaluating the code: an entered empty directory
fires on_dir_enter but zero on_dir_exit calls, and a directory with two
files fires two on_dir_exit calls. -/
theorem c1_dir_exit_once_per_child_not_per_dir :
    (handleItem unitVisitor emptyDir [] ()).events = [.dirEnter [] true] ∧
    countDirExit (handleItem unitVisitor emptyDir [] ()).events = 0 ∧
    countDirExit (handleItem unitVisitor twoFileDir [] ()).events = 2 := by
  decide

/-- C2: on a static panic-free filesystem tree with per-directory-unique
entry names and at least one worker, every execution of the visit_paths
protocol is finite, and a reachable state with no enabled transition has
the dispatcher returned with every worker joined after exiting. -/
theorem c2_visit_paths_terminates_and_joins (σ : Type) (sys : Sys σ)
    (hpf : sys.fs.panicFreeTree = true) (hu : sys.fs.uniqueTree = true)
    (_hN : 1 ≤ sys.numWorkers) :
    (¬ ∃ f : Nat → WalkState σ, f 0 = initState sys ∧
        ∀ n, Step sys (f n) (f (n + 1))) ∧
    (∀ s, Reachable sys s → Stuck sys s →
        s.mpc = .done ∧ ∀ pc ∈ s.ws, pc = .exited) := by
  constructor
  · rintro ⟨f, hf0, hfs⟩
    have hreach : ∀ n, Reachable sys (f n) := by
      intro n
      induction n with
      | zero =>
        rw [hf0]
        exact Relation.ReflTransGen.refl
      | succ m ih => exact Relation.ReflTransGen.tail ih (hfs m)
    exact no_descending_nat (fun n => natMeasure sys (f n))
      (fun n => step_measure hu (reachable_inv (hreach n)) (hfs n))
  · intro s hr hstuck
    exact stuck_done hpf (reachable_inv hr) hstuck

/-- C2 witness: the hypotheses hold and the theorem applies at the concrete
one-worker system over the empty directory. -/
theorem c2_witness :
    sysUnit.fs.panicFreeTree = true ∧ sysUnit.fs.uniqueTree = true ∧
    1 ≤ sysUnit.numWorkers ∧
    ((¬ ∃ f : Nat → WalkState Unit, f 0 = initState sysUnit ∧
        ∀ n, Step sysUnit (f n) (f (n + 1))) ∧
      (∀ s, Reachable sysUnit s → Stuck sysUnit s →
        s.mpc = .done ∧ ∀ pc ∈ s.ws, pc = .exited)) :=
  ⟨by decide, by decide, by decide,
    c2_visit_paths_terminates_and_joins Unit sysUnit (by decide) (by decide) (by decide)⟩

/-- C3 counterexample: a popped queue item that lstat classifies as
neither regular file nor directory triggers no on_nonfile_visit: the
worker produces no callback event and leaves the visitor state untouched
(lib.rs lines 167-173 only log at debug level). -/
theorem c3_counterexample_no_nonfile_visit :
    (handleItem nonfileCounter otherNode [] 0).events = [] ∧
    (handleItem nonfileCounter otherNode [] 0).st = 0 := by
  decide

/-- C3 amended: a popped queue item of non-file non-directory type is
skipped with only a debug log: no visitor hook runs, nothing is pushed,
nothing panics, and the visitor state is unchanged. -/
theorem c3_other_item_skipped (σ : Type) (vis : Visitor σ) (fs : FsTree)
    (p : Path) (s : σ) (m : Metadata)
    (hm : symlinkMetadata fs p = some m) (hft : m.ftype = .other) :
    handleItem vis fs p s = ⟨s, [], [], none⟩ := by
  obtain ⟨ft, dev, ino⟩ := m
  have hft' : ft = FileType.other := hft
  subst hft'
  unfold handleItem
  rw [hm]

/-- C3 amended witness. -/
theorem c3_other_item_skipped_witness :
    symlinkMetadata otherNode [] = some (meta0 .other) ∧
    (meta0 .other).ftype = .other ∧
    handleItem unitVisitor otherNode [] () = ⟨(), [], [], none⟩ :=
  ⟨by decide, by decide,
    c3_other_item_skipped Unit unitVisitor otherNode [] () (meta0 .other)
      (by decide) (by decide)⟩

/-- C4: when the metadata probe fails on a popped queue item, the worker
skips the path entirely: no visitor hook (in particular no on_dir_exit),
no push, no panic, unchanged visitor state; the loop just continues
(lib.rs lines 174-176). -/
theorem c4_probe_failure_skips_path (σ : Type) (vis : Visitor σ) (fs : FsTree)
    (p : Path) (s : σ) (hm : symlinkMetadata fs p = none) :
    handleItem vis fs p s = ⟨s, [], [], none⟩ := by
  unfold handleItem
  rw [hm]

/-- C4 witness. -/
theorem c4_probe_failure_skips_path_witness :
    symlinkMetadata statFailNode [] = none ∧
    handleItem unitVisitor statFailNode [] () = ⟨(), [], [], none⟩ :=
  ⟨by decide,
    c4_probe_failure_skips_path Unit unitVisitor statFailNode [] () (by decide)⟩

/-- C5: a directory whose on_dir_enter declines descent, or whose child
enumeration fails, gets exactly the events on_dir_enter then on_dir_exit,
with no child callbacks and no queue pushes (lib.rs lines 77-91). -/
theorem c5_decline_or_enumeration_failure (σ : Type) (vis : Visitor σ)
    (fs : FsTree) (p : Path) (m : Metadata) (s : σ)
    (h : (vis.on_dir_enter s p m).2 = false ∨ readDir fs p = none) :
    processDir vis fs p m s =
      ⟨vis.on_dir_exit (vis.on_dir_enter s p m).1 p m,
        [.dirEnter p (vis.on_dir_enter s p m).2, .dirExit p], [], none⟩ := by
  unfold processDir
  rcases hde : vis.on_dir_enter s p m with ⟨s1, b⟩
  rcases b with _ | _
  · rfl
  · rcases h with h | h
    · rw [hde] at h
      exact absurd h (by simp)
    · rw [h]

/-- C5 witness: a declining visitor on the empty directory. -/
theorem c5_decline_or_enumeration_failure_witness :
    ((declineVisitor.on_dir_enter () [] (meta0 .dir)).2 = false ∨
      readDir emptyDir [] = none) ∧
    processDir declineVisitor emptyDir [] (meta0 .dir) () =
      ⟨(), [.dirEnter [] false, .dirExit []], [], none⟩ :=
  ⟨Or.inl rfl,
    c5_decline_or_enumeration_failure Unit declineVisitor emptyDir [] (meta0 .dir) ()
      (Or.inl rfl)⟩

/-- C6: the work queue is last-in-first-out: popping right after push(p)
on any queue q returns p and restores q, and popping the empty queue
reports empty (Vec::push / Vec::pop, lib.rs lines 97-100 and 155). -/
theorem c6_queue_lifo (q : List Path) (p : Path) :
    queuePop (queuePush q p) = some (p, q) ∧
    queuePop ([] : List Path) = none := by
  constructor
  · show (match (q ++ [p]).reverse with
      | [] => none
      | x :: r => some (x, r.reverse)) = some (p, q)
    rw [List.reverse_append]
    simp
  · rfl

/-- C7: in every reachable state of the visit_paths protocol the active
counter satisfies 0 <= active_count <= num_workers, starting from
num_workers; the step relation decrements it exactly once per empty pop
before parking and increments it after waking before the next pop. -/
theorem c7_active_count_bounds (σ : Type) (sys : Sys σ) (s : WalkState σ)
    (h : Reachable sys s) :
    (initState sys).active = (sys.numWorkers : Int) ∧
    0 ≤ s.active ∧ s.active ≤ (sys.numWorkers : Int) := by
  have hs := reachable_inv h
  refine ⟨rfl, ?_, ?_⟩
  · rw [hs.act]
    omega
  · rw [hs.act]
    have h1 : countActive s.ws ≤ s.ws.length := List.countP_le_length countedPc
    rw [hs.lenW] at h1
    omega

/-- C7 witness: the initial state of the concrete system. -/
theorem c7_active_count_bounds_witness :
    Reachable sysUnit (initState sysUnit) ∧
    ((initState sysUnit).active = (sysUnit.numWorkers : Int) ∧
      0 ≤ (initState sysUnit).active ∧
      (initState sysUnit).active ≤ (sysUnit.numWorkers : Int)) :=
  ⟨Relation.ReflTransGen.refl,
    c7_active_count_bounds Unit sysUnit (initState sysUnit) Relation.ReflTransGen.refl⟩

/-- C8: the reference visitor's on_dir_enter returns true exactly when the
directory's device id is in root_devnos, and root_devnos holds exactly the
device ids of the seed paths whose metadata probe succeeded in
CountingVisitor::new. -/
theorem c8_counting_visitor_device_gate (fs : FsTree) (seeds : List Path)
    (p : Path) (m : Metadata) :
    ((countingVisitorImpl.on_dir_enter (CountingVisitor.new fs seeds) p m).2 = true ↔
      m.dev ∈ (CountingVisitor.new fs seeds).root_devnos) ∧
    (m.dev ∈ (CountingVisitor.new fs seeds).root_devnos ↔
      ∃ q ∈ seeds, ∃ m', symlinkMetadata fs q = some m' ∧ m'.dev = m.dev) := by
  constructor
  · show decide (m.dev ∈ (CountingVisitor.new fs seeds).root_devnos) = true ↔ _
    exact decide_eq_true_iff
  · simpa [CountingVisitor.new] using mem_collect_devnos fs seeds ∅ m.dev

/-- C9: during enumeration, a child entry that stats as a directory but
whose name is not valid UTF-8 makes process_dir panic in the
into_string unwrap (lib.rs line 100) before anything is pushed for that
directory; the String-typed queue cannot carry such paths. -/
theorem c9_non_utf8_dir_child_panics (σ : Type) (vis : Visitor σ)
    (fs : FsTree) (p : Path) (m : Metadata) (s : σ) (name : OsString)
    (cm : Metadata) (crd : Bool) (sub rest : EntryList)
    (hrd : readDir fs p = some (.consOk name true cm crd sub rest))
    (hdescend : (vis.on_dir_enter s p m).2 = true)
    (hft : cm.ftype = .dir) (hu8 : validUtf8 name = false) :
    (processDir vis fs p m s).panic = some (.nonUtf8 name) ∧
    (processDir vis fs p m s).pushes = [] := by
  unfold processDir
  rcases hde : vis.on_dir_enter s p m with ⟨s1, b⟩
  rw [hde] at hdescend
  rcases b with _ | _
  · exact absurd hdescend (by simp)
  · rw [hrd]
    have hres : processEntries vis p m (.consOk name true cm crd sub rest) s1
        = ⟨s1, [], [], some (.nonUtf8 name)⟩ := by
      obtain ⟨ft, dev, ino⟩ := cm
      have h0 : ft = FileType.dir := hft
      subst h0
      simp [processEntries, hu8]
    show ((processEntries vis p m (.consOk name true cm crd sub rest) s1).panic
        = some (.nonUtf8 name)) ∧
      ((processEntries vis p m (.consOk name true cm crd sub rest) s1).pushes = [])
    rw [hres]
    exact ⟨rfl, rfl⟩

/-- C9 witness. -/
theorem c9_non_utf8_dir_child_panics_witness :
    readDir badNameDir [] = some (.consOk [255] true (meta0 .dir) true .nil .nil) ∧
    (unitVisitor.on_dir_enter () [] (meta0 .dir)).2 = true ∧
    (meta0 .dir).ftype = .dir ∧ validUtf8 [255] = false ∧
    ((processDir unitVisitor badNameDir [] (meta0 .dir) ()).panic
        = some (.nonUtf8 [255]) ∧
      (processDir unitVisitor badNameDir [] (meta0 .dir) ()).pushes = []) :=
  ⟨by decide, by decide, by decide, by decide,
    c9_non_utf8_dir_child_panics Unit unitVisitor badNameDir [] (meta0 .dir) ()
      [255] (meta0 .dir) true .nil .nil (by decide) (by decide) (by decide) (by decide)⟩

/-- C10: when the read_dir iterator itself yields an Err entry, process_dir
panics on the unwrap of that entry (lib.rs line 93), aborting the worker
after only on_dir_enter instead of skipping the entry and walking on. -/
theorem c10_iterator_error_panics (σ : Type) (vis : Visitor σ)
    (fs : FsTree) (p : Path) (m : Metadata) (s : σ) (rest : EntryList)
    (hrd : readDir fs p = some (.consErr rest))
    (hdescend : (vis.on_dir_enter s p m).2 = true) :
    (processDir vis fs p m s).panic = some .entryErr ∧
    (processDir vis fs p m s).events = [.dirEnter p true] ∧
    (processDir vis fs p m s).pushes = [] := by
  unfold processDir
  rcases hde : vis.on_dir_enter s p m with ⟨s1, b⟩
  rw [hde] at hdescend
  rcases b with _ | _
  · exact absurd hdescend (by simp)
  · rw [hrd]
    exact ⟨rfl, rfl, rfl⟩

/-- C10 witness. -/
theorem c10_iterator_error_panics_witness :
    readDir errEntryDir [] = some (.consErr .nil) ∧
    (unitVisitor.on_dir_enter () [] (meta0 .dir)).2 = true ∧
    ((processDir unitVisitor errEntryDir [] (meta0 .dir) ()).panic = some .entryErr ∧
      (processDir unitVisitor errEntryDir [] (meta0 .dir) ()).events
        = [.dirEnter [] true] ∧
      (processDir unitVisitor errEntryDir [] (meta0 .dir) ()).pushes = []) :=
  ⟨by decide, by decide,
    c10_iterator_error_panics Unit unitVisitor errEntryDir [] (meta0 .dir) ()
      .nil (by decide) (by decide)⟩

end CFileVisit
